import Mathlib

/-!
Verification of the wiki crawler in `main.py`.

The development shallow-embeds the program: URL parsing follows the
`urllib.parse` routines the program calls (`urlparse`, `urljoin`), page
markup is modelled as the list of start-tag events the HTML tokenizer
delivers to `WikiLinkParser`, the SQLite tables are lists of rows with
insert-or-ignore semantics, and the concurrent worker pool is a small-step
transition system driven by an explicit interleaving schedule.
-/

namespace WikiCrawler

/-! ## Python string helpers -/

/-- `strStarts pat s`: `s` starts with `pat` (model of `str.startswith`). -/
def strStarts : List Char → List Char → Bool
  | [], _ => true
  | _ :: _, [] => false
  | a :: as, b :: bs => a == b && strStarts as bs

/-- `strHasSub pat s`: `pat` occurs as a contiguous substring of `s`
(model of Python's `pat in s`). -/
def strHasSub (pat : List Char) : List Char → Bool
  | [] => strStarts pat []
  | hay@(_ :: rest) => strStarts pat hay || strHasSub pat rest

/-- Model of `s.startswith(pre)` on `String`. -/
def pyStartsWith (s pre : String) : Bool := strStarts pre.data s.data

/-- Model of Python's `pre in s` substring test on `String`. -/
def pyContains (s pat : String) : Bool := strHasSub pat.data s.data

/-- Split at the first occurrence of `c`: model of `s.split(c, 1)`
(second component empty when `c` does not occur). -/
def splitOnFirst (c : Char) (l : List Char) : List Char × List Char :=
  match l.findIdx? (fun x => x == c) with
  | some i => (l.take i, l.drop (i + 1))
  | none => (l, [])

/-- Model of `s.split(c)` (full split, keeps empty pieces). -/
def splitAll (c : Char) : List Char → List (List Char)
  | [] => [[]]
  | x :: xs =>
    let r := splitAll c xs
    if x == c then [] :: r
    else
      match r with
      | [] => [[x]]
      | h :: t => (x :: h) :: t

/-- Interleave `c` between the pieces: model of `c.join(pieces)`. -/
def joinWith (c : Char) : List (List Char) → List Char
  | [] => []
  | [s] => s
  | s :: rest => s ++ c :: joinWith c rest

/-! ## `urllib.parse.urlparse` -/

/-- The components of a parsed URL (`ParseResult` of `urllib.parse`). -/
structure UrlParts where
  scheme : List Char
  netloc : List Char
  path : List Char
  params : List Char
  query : List Char
  fragment : List Char
deriving DecidableEq

/-- Characters allowed in a URL scheme (`scheme_chars`). -/
def isSchemeChar (c : Char) : Bool :=
  c.isAlpha || c.isDigit || c == '+' || c == '-' || c == '.'

/-- Scheme extraction step of `urlsplit`: a colon at a positive index
preceded only by scheme characters (first one a letter) cuts off the
scheme, which is lowercased. -/
def splitScheme (url : List Char) : List Char × List Char :=
  match url.findIdx? (fun c => c == ':') with
  | some i =>
    if 0 < i ∧ (url.headD ' ').isAlpha = true ∧ (url.take i).all isSchemeChar = true then
      ((url.take i).map Char.toLower, url.drop (i + 1))
    else ([], url)
  | none => ([], url)

/-- Netloc extraction step of `urlsplit` (`_splitnetloc` after the
leading `//` has been dropped): the netloc runs up to the first
`/`, `?` or `#`. -/
def splitNetloc (url : List Char) : List Char × List Char :=
  let i := (url.findIdx? (fun c => c == '/' || c == '?' || c == '#')).getD url.length
  (url.take i, url.drop i)

/-- Params extraction step of `urlparse` (`_splitparams`): split at the
first `;` inside the last path segment. -/
def splitParams (url : List Char) : List Char × List Char :=
  if url.contains '/' then
    let j := url.length - 1 - ((url.reverse.findIdx? (fun c => c == '/')).getD 0)
    let pre := url.take j
    let seg := url.drop j
    match seg.findIdx? (fun c => c == ';') with
    | some i => (pre ++ seg.take i, seg.drop (i + 1))
    | none => (url, [])
  else
    match url.findIdx? (fun c => c == ';') with
    | some i => (url.take i, url.drop (i + 1))
    | none => (url, [])

/-- Model of `urllib.parse.urlsplit` (with `allow_fragments=True`):
scheme, then netloc after `//`, then fragment after `#`, then query
after `?`; the remainder is the path. -/
def urlsplitChars (url : List Char) : UrlParts :=
  let (scheme, u1) := splitScheme url
  let (netloc, u2) :=
    if u1.take 2 = ['/', '/'] then splitNetloc (u1.drop 2) else ([], u1)
  let (u3, fragment) := splitOnFirst '#' u2
  let (path, query) := splitOnFirst '?' u3
  { scheme := scheme, netloc := netloc, path := path, params := [],
    query := query, fragment := fragment }

/-- Model of `urllib.parse.urlparse`: `urlsplit` plus params splitting
on the path. -/
def urlparseChars (url : List Char) : UrlParts :=
  let s := urlsplitChars url
  if s.path.contains ';' then
    let (p, ps) := splitParams s.path
    { s with path := p, params := ps }
  else s

/-- The named components of `urlparse` as `String`s. -/
structure ParseResult where
  scheme : String
  netloc : String
  path : String
  params : String
  query : String
  fragment : String
deriving DecidableEq

/-- `urlparse` on `String`. -/
def urlparse (url : String) : ParseResult :=
  let u := urlparseChars url.data
  { scheme := String.mk u.scheme, netloc := String.mk u.netloc,
    path := String.mk u.path, params := String.mk u.params,
    query := String.mk u.query, fragment := String.mk u.fragment }

/-! ## `urllib.parse.urljoin` -/

/-- `uses_relative` of `urllib.parse`. -/
def usesRelative : List (List Char) :=
  ["", "ftp", "http", "gopher", "nntp", "imap", "wais", "file", "https",
   "shttp", "mms", "prospero", "rtsp", "rtspu", "sftp", "svn", "svn+ssh",
   "ws", "wss"].map String.data

/-- `uses_netloc` of `urllib.parse`. -/
def usesNetloc : List (List Char) :=
  ["", "ftp", "http", "gopher", "nntp", "telnet", "imap", "wais", "file",
   "mms", "https", "shttp", "snews", "prospero", "rtsp", "rtspu", "rsync",
   "svn", "svn+ssh", "sftp", "nfs", "git", "git+ssh", "ws", "wss"].map
    String.data

/-- Model of `urlunsplit`. -/
def urlunsplitChars (scheme netloc path query fragment : List Char) :
    List Char :=
  let url := path
  let url :=
    if netloc ≠ [] ∨ (url ≠ [] ∧ url.take 2 = ['/', '/']) then
      let url2 := if url ≠ [] ∧ url.take 1 ≠ ['/'] then '/' :: url else url
      '/' :: '/' :: (netloc ++ url2)
    else url
  let url := if scheme ≠ [] then scheme ++ ':' :: url else url
  let url := if query ≠ [] then url ++ '?' :: query else url
  if fragment ≠ [] then url ++ '#' :: fragment else url

/-- Model of `urlunparse`: params are glued to the path with `;`. -/
def urlunparseChars (scheme netloc path params query fragment : List Char) :
    List Char :=
  let p := if params ≠ [] then path ++ ';' :: params else path
  urlunsplitChars scheme netloc p query fragment

/-- Dot-segment resolution loop of `urljoin` (`resolved_path`); the
accumulator holds the resolved segments in reverse. -/
def resolveLoop (acc : List (List Char)) : List (List Char) → List (List Char)
  | [] => acc.reverse
  | seg :: rest =>
    if seg = ['.', '.'] then resolveLoop acc.tail rest
    else if seg = ['.'] then resolveLoop acc rest
    else resolveLoop (seg :: acc) rest

/-- `segments[1:-1] = filter(None, segments[1:-1])` of `urljoin`. -/
def filterMiddle : List (List Char) → List (List Char)
  | [] => []
  | [a] => [a]
  | a :: rest => a :: (rest.dropLast.filter (fun s => !s.isEmpty)) ++ [rest.getLastD []]

/-- Model of `urllib.parse.urljoin`. -/
def urljoin (base url : String) : String :=
  if base = "" then url
  else if url = "" then base
  else
    let b := urlparseChars base.data
    let u0 := urlparseChars url.data
    let u := if u0.scheme = [] then { u0 with scheme := b.scheme } else u0
    if ¬(u.scheme = b.scheme ∧ u.scheme ∈ usesRelative) then url
    else if u.scheme ∈ usesNetloc ∧ u.netloc ≠ [] then
      String.mk (urlunparseChars u.scheme u.netloc u.path u.params u.query u.fragment)
    else
      let netloc := if u.scheme ∈ usesNetloc then b.netloc else u.netloc
      if u.path = [] ∧ u.params = [] then
        let query := if u.query = [] then b.query else u.query
        String.mk (urlunparseChars u.scheme netloc b.path b.params query u.fragment)
      else
        let baseParts0 := splitAll '/' b.path
        let baseParts :=
          if baseParts0.getLastD [] ≠ [] then baseParts0.dropLast else baseParts0
        let segments :=
          if u.path.take 1 = ['/'] then splitAll '/' u.path
          else filterMiddle (baseParts ++ splitAll '/' u.path)
        let resolved := resolveLoop [] segments
        let resolved :=
          if segments.getLastD [] = ['.'] ∨ segments.getLastD [] = ['.', '.'] then
            resolved ++ [[]]
          else resolved
        let joined := joinWith '/' resolved
        let path := if joined = [] then ['/'] else joined
        String.mk (urlunparseChars u.scheme netloc path u.params u.query u.fragment)

/-! ## `WikiLinkParser` and `parse_links` -/

/-- One start-tag event delivered by the HTML tokenizer to
`WikiLinkParser.handle_starttag`: the tag name and its attribute list
(attribute values may be absent, as in Python's `Optional[str]`). -/
structure StartTag where
  tag : String
  attrs : List (String × Option String)
deriving DecidableEq

/-- `dict(attrs).get(key)`: the value bound to the last occurrence of
`key`, flattened (`None` when absent or bound to `None`). -/
def dictGet (key : String) (attrs : List (String × Option String)) :
    Option String :=
  match attrs.reverse.find? (fun p => p.1 == key) with
  | some p => p.2
  | none => none

/-- `WikiLinkParser.is_wiki_article`: reject any href with a nonempty
fragment, accept paths in `/wiki/` outside `/wiki/Special:`. -/
def is_wiki_article (href : String) : Bool :=
  let parsed := urlparse href
  if parsed.fragment ≠ "" then false
  else if pyStartsWith parsed.path "/wiki/" = true ∧
      ¬pyStartsWith parsed.path "/wiki/Special:" = true then true
  else false

/-- Set insertion for the Python `set.add` on `self.links`, modelled as
append-if-absent on a duplicate-free list. -/
def setAdd (l : List String) (u : String) : List String :=
  if u ∈ l then l else l ++ [u]

/-- `WikiLinkParser.handle_starttag`: on an `a` tag with a truthy href
accepted by `is_wiki_article`, add `urljoin(base_url, href)` to the set. -/
def handle_starttag (base_url : String) (links : List String)
    (t : StartTag) : List String :=
  if t.tag = "a" then
    match dictGet "href" t.attrs with
    | some href =>
      if href ≠ "" ∧ is_wiki_article href = true then
        setAdd links (urljoin base_url href)
      else links
    | none => links
  else links

/-- `parse_links`: feed the markup's start-tag events through the parser
and return the accumulated link set. -/
def parse_links (events : List StartTag) (base_url : String) : List String :=
  events.foldl (handle_starttag base_url) []

/-! ## `is_valid_wikipedia_url` -/

/-- `is_valid_wikipedia_url`: scheme is http or https, netloc contains
the substring `wikipedia.org`, path starts with `/wiki/`. -/
def is_valid_wikipedia_url (url : String) : Bool :=
  let parsed := urlparse url
  if ¬(parsed.scheme = "http" ∨ parsed.scheme = "https") then false
  else if ¬pyContains parsed.netloc "wikipedia.org" = true then false
  else if ¬pyStartsWith parsed.path "/wiki/" = true then false
  else true

/-! ## Crawler state

The SQLite tables (`visited` with primary key `url`, `links` with primary
key `url`) are lists of rows in insertion order; `INSERT OR IGNORE` is
append-if-key-absent.  The in-memory mirror `self.visited` is a Python
set, the frontier `self.queue` a FIFO list (head = next `get`).
-/

structure CrawlerState where
  start_url : String
  max_depth : Nat
  visitedTable : List (String × Nat)
  linksTable : List String
  visited : List String
  queue : List (String × Nat)
  total_links_processed : Nat
  stop_event : Bool
deriving DecidableEq

/-- URLs currently stored in the `visited` table. -/
def visitedKeys (s : CrawlerState) : List String := s.visitedTable.map Prod.fst

/-- `Crawler.__init__` over a database file that already holds the given
table contents (the file `wikipedia_links.db` persists across runs):
fresh empty mirror, fresh queue holding the seed at depth 0. -/
def Crawler.initWith (vt : List (String × Nat)) (lt : List String)
    (start_url : String) (max_depth : Nat) : CrawlerState :=
  { start_url := start_url, max_depth := max_depth, visitedTable := vt,
    linksTable := lt, visited := [], queue := [(start_url, 0)],
    total_links_processed := 0, stop_event := false }

/-- `Crawler.__init__` over a fresh (empty) database file. -/
def Crawler.init (start_url : String) (max_depth : Nat) : CrawlerState :=
  Crawler.initWith [] [] start_url max_depth

/-- `Crawler.is_visited`: `SELECT 1 FROM visited WHERE url = ?`. -/
def is_visited (s : CrawlerState) (url : String) : Bool :=
  s.visitedTable.any (fun r => r.1 == url)

/-- `Crawler.mark_visited`: `INSERT OR IGNORE INTO visited` plus
`self.visited.add(url)`, under the shared lock. -/
def mark_visited (s : CrawlerState) (url : String) (depth : Nat) :
    CrawlerState :=
  let vt :=
    if s.visitedTable.any (fun r => r.1 == url) then s.visitedTable
    else s.visitedTable ++ [(url, depth)]
  { s with visitedTable := vt, visited := setAdd s.visited url }

/-- `Crawler.save_links`: `executemany('INSERT OR IGNORE INTO links ...')`. -/
def save_links (s : CrawlerState) (links : List String) : CrawlerState :=
  { s with
    linksTable :=
      links.foldl (fun t l => if l ∈ t then t else t ++ [l]) s.linksTable }

/-! ## Worker pool semantics

Each worker runs `Crawler.worker`.  A worker is either at the top of its
loop (`idle`), between the mirror check and the `fetch_page` call for a
dequeued item (`fetching url depth`), or out of the loop (`done`, reached
only when `stop_event` is observed).  The fetch collaborator is an oracle
`pages : String → Option (List StartTag)` giving the tokenized markup of
a page, or `none` when `fetch_page` raises.  A step of an `idle` worker
performs the dequeue and the depth and mirror checks (lines 111-121); a
step of a `fetching` worker performs the whole `try` block (lines
123-133): fetch, `parse_links`, `save_links`, `mark_visited`, the child
pushes and the counter increment.  Events record every `fetch_page`
attempt and every `mark_visited` call.
-/

inductive CrawlEvent where
  | fetch (url : String) (depth : Nat)
  | insertVisited (url : String) (depth : Nat)
deriving DecidableEq

inductive WorkerPC where
  | idle
  | fetching (url : String) (depth : Nat)
  | done
deriving DecidableEq

structure SysState where
  shared : CrawlerState
  workers : List WorkerPC
deriving DecidableEq

/-- The loop head of `Crawler.worker`: check `stop_event`, dequeue with
timeout (`Empty` leaves the state unchanged), then the depth and mirror
checks, each dropping the item via `continue`. -/
def idleStep (s : CrawlerState) : CrawlerState × WorkerPC :=
  if s.stop_event then (s, .done)
  else
    match s.queue with
    | [] => (s, .idle)
    | (url, depth) :: rest =>
      let s' := { s with queue := rest }
      if s.max_depth < depth then (s', .idle)
      else if url ∈ s.visited then (s', .idle)
      else (s', .fetching url depth)

/-- The `try` block of `Crawler.worker` for the held item: `fetch_page`
(an exception drops the item), `parse_links`, `save_links`,
`mark_visited`, push every extracted link not in the mirror at depth+1,
increment `total_links_processed`. -/
def fetchStep (pages : String → Option (List StartTag)) (s : CrawlerState)
    (url : String) (depth : Nat) : CrawlerState × List CrawlEvent :=
  match pages url with
  | none => (s, [CrawlEvent.fetch url depth])
  | some markup =>
    let links := parse_links markup url
    let s1 := save_links s links
    let s2 := mark_visited s1 url depth
    let s3 :=
      { s2 with
        queue := s2.queue ++
          (links.filter (fun l => l ∉ s2.visited)).map (fun l => (l, depth + 1)),
        total_links_processed := s2.total_links_processed + 1 }
    (s3, [CrawlEvent.fetch url depth, CrawlEvent.insertVisited url depth])

/-- One scheduler step: worker `i` (if it exists) advances once. -/
def sysStep (pages : String → Option (List StartTag)) (sys : SysState)
    (i : Nat) : SysState × List CrawlEvent :=
  match sys.workers.get? i with
  | none => (sys, [])
  | some WorkerPC.done => (sys, [])
  | some WorkerPC.idle =>
    let p := idleStep sys.shared
    ({ shared := p.1, workers := sys.workers.set i p.2 }, [])
  | some (WorkerPC.fetching url depth) =>
    let p := fetchStep pages sys.shared url depth
    ({ shared := p.1, workers := sys.workers.set i .idle }, p.2)

/-- Run a whole interleaving schedule, collecting the event trace. -/
def sysRun (pages : String → Option (List StartTag)) :
    SysState → List Nat → SysState × List CrawlEvent
  | sys, [] => (sys, [])
  | sys, i :: sched =>
    let p := sysStep pages sys i
    let q := sysRun pages p.1 sched
    (q.1, p.2 ++ q.2)

/-- The pool `Crawler.crawl` starts over a fresh database: `n` workers,
all at the top of their loops. -/
def sysInit (start_url : String) (max_depth : Nat) (n : Nat) : SysState :=
  { shared := Crawler.init start_url max_depth,
    workers := List.replicate n .idle }

/-- Number of `fetch_page` attempts for `url` recorded in a trace. -/
def fetchCount (trace : List CrawlEvent) (url : String) : Nat :=
  (trace.filter (fun e =>
    match e with
    | CrawlEvent.fetch u _ => u == url
    | _ => false)).length

/-! ## Concrete fixtures used by counterexamples and witnesses -/

/-- A fetch oracle on which every fetch raises. -/
def noPages : String → Option (List StartTag) := fun _ => none

/-- A fetch oracle on which every page is empty markup. -/
def emptyPages : String → Option (List StartTag) := fun _ => some []

/-- An anchor start tag carrying one href attribute. -/
def atag (href : String) : StartTag :=
  { tag := "a", attrs := [("href", some href)] }

/-- Pages of a three-article site: A links to B and C, C links to B, so
B is discovered (and enqueued) twice. -/
def pagesDup : String → Option (List StartTag) := fun u =>
  if u = "http://x/wiki/A" then some [atag "/wiki/B", atag "/wiki/C"]
  else if u = "http://x/wiki/C" then some [atag "/wiki/B"]
  else some []

/-- A two-worker interleaving on `pagesDup`: worker 0 dequeues B and
stalls before its fetch while worker 1 processes C, re-enqueues B and
dequeues it again; then both workers fetch B. -/
def dupSched : List Nat := [0, 0, 0, 1, 1, 1, 0, 1]

/-- A page whose only anchors are two fragment variants of one article. -/
def fragPage : List StartTag :=
  [atag "/wiki/Example#Section1", atag "/wiki/Example#Section2"]

/-! ## List-level helper lemmas -/

theorem mem_setAdd {l : List String} {u v : String} :
    v ∈ setAdd l u ↔ v ∈ l ∨ v = u := by
  unfold setAdd
  by_cases h : u ∈ l
  · rw [if_pos h]
    exact ⟨Or.inl, fun hv => hv.elim id (fun hv => hv ▸ h)⟩
  · rw [if_neg h]
    simp [List.mem_append]

theorem setAdd_of_mem {l : List String} {u : String} (h : u ∈ l) :
    setAdd l u = l := by
  unfold setAdd
  exact if_pos h

/-- `mark_visited` is a no-op on a state already holding the record and
the mirror entry. -/
theorem mark_visited_noop {s : CrawlerState} {url : String} {d : Nat}
    (ht : s.visitedTable.any (fun r => r.1 == url) = true)
    (hm : url ∈ s.visited) : mark_visited s url d = s := by
  unfold mark_visited
  rw [if_pos ht, setAdd_of_mem hm]

theorem any_key_iff {l : List (String × Nat)} {url : String} :
    l.any (fun r => r.1 == url) = true ↔ url ∈ l.map Prod.fst := by
  simp only [List.any_eq_true, List.mem_map, beq_iff_eq]

/-! ## Claim C7: idempotent visitation -/

/-- C7: for a URL not yet recorded, `mark_visited(url, d1)` followed by
`mark_visited(url, d2)` is the same state as a single
`mark_visited(url, d1)`, and the visited table holds exactly the one
record `(url, d1)` for that URL. -/
theorem mark_visited_idempotent (s : CrawlerState) (url : String)
    (d1 d2 : Nat) (h : url ∉ visitedKeys s) :
    mark_visited (mark_visited s url d1) url d2 = mark_visited s url d1 ∧
    (mark_visited (mark_visited s url d1) url d2).visitedTable.filter
      (fun r => r.1 == url) = [(url, d1)] := by
  have hany : s.visitedTable.any (fun r => r.1 == url) = false := by
    rw [Bool.eq_false_iff]
    intro hc
    exact h (any_key_iff.mp hc)
  have hvt1 :
      (mark_visited s url d1).visitedTable = s.visitedTable ++ [(url, d1)] := by
    simp [mark_visited, hany]
  have hany2 :
      (mark_visited s url d1).visitedTable.any (fun r => r.1 == url) = true := by
    rw [hvt1, any_key_iff]
    simp
  have hmem2 : url ∈ (mark_visited s url d1).visited := by
    show url ∈ setAdd s.visited url
    exact mem_setAdd.mpr (Or.inr rfl)
  have heq :
      mark_visited (mark_visited s url d1) url d2 = mark_visited s url d1 :=
    mark_visited_noop hany2 hmem2
  refine ⟨heq, ?_⟩
  rw [heq, hvt1, List.filter_append]
  have hnil : s.visitedTable.filter (fun r => r.1 == url) = [] := by
    rw [List.filter_eq_nil_iff]
    intro r hr hc
    exact h (any_key_iff.mp (List.any_eq_true.mpr ⟨r, hr, hc⟩))
  rw [hnil]
  simp

/-- Witness for C7 at a fresh crawler state. -/
theorem mark_visited_idempotent_witness :
    "b" ∉ visitedKeys (Crawler.init "a" 6) ∧
    (mark_visited (mark_visited (Crawler.init "a" 6) "b" 0) "b" 5 =
        mark_visited (Crawler.init "a" 6) "b" 0 ∧
      (mark_visited (mark_visited (Crawler.init "a" 6) "b" 0) "b" 5).visitedTable.filter
        (fun r => r.1 == "b") = [("b", 0)]) :=
  ⟨by decide, mark_visited_idempotent (Crawler.init "a" 6) "b" 0 5 (by decide)⟩

/-! ## Claim C2: fragment handling in link extraction -/

/-- Any href carrying a nonempty fragment is rejected outright by
`is_wiki_article` (the fragment is not stripped). -/
theorem fragment_href_rejected (href : String)
    (h : (urlparse href).fragment ≠ "") : is_wiki_article href = false := by
  simp only [is_wiki_article]
  rw [if_pos h]

/-- C2 counterexample: a page holding the two anchors
`/wiki/Example#Section1` and `/wiki/Example#Section2` extracts to the
empty set; in particular the fragment-stripped URL claimed by the spec is
not in the result. -/
theorem fragment_collapse_counterexample :
    parse_links fragPage "https://en.wikipedia.org/wiki/Base" = [] ∧
    "https://en.wikipedia.org/wiki/Example" ∉
      parse_links fragPage "https://en.wikipedia.org/wiki/Base" := by
  decide

/-- C2 amended: every anchor whose href parses with a nonempty fragment
is discarded by the extractor, so a page all of whose hrefs carry
fragments yields the empty link set (fragment variants are dropped, not
collapsed to a fragment-free URL). -/
theorem fragment_links_discarded (events : List StartTag) (base : String)
    (h : ∀ t ∈ events, ∀ href, dictGet "href" t.attrs = some href →
      (urlparse href).fragment ≠ "") :
    parse_links events base = [] := by
  unfold parse_links
  induction events with
  | nil => rfl
  | cons t rest ih =>
    simp only [List.foldl_cons]
    have ht : handle_starttag base [] t = [] := by
      unfold handle_starttag
      split
      · cases hd : dictGet "href" t.attrs with
        | none => rfl
        | some href =>
          have hf : is_wiki_article href = false :=
            fragment_href_rejected href (h t (List.mem_cons_self t rest) href hd)
          simp [hf]
      · rfl
    rw [ht]
    exact ih fun t' ht' href hd => h t' (List.mem_cons_of_mem t ht') href hd

/-- Witness for C2 amended on the concrete two-anchor page. -/
theorem fragment_links_discarded_witness :
    (∀ t ∈ fragPage, ∀ href, dictGet "href" t.attrs = some href →
      (urlparse href).fragment ≠ "") ∧
    parse_links fragPage "https://en.wikipedia.org/wiki/Base" = [] :=
  ⟨by decide,
   fragment_links_discarded fragPage "https://en.wikipedia.org/wiki/Base"
     (by decide)⟩

/-! ## Claim C8: what the link extractor filters -/

theorem mem_handle_starttag {base : String} {acc : List String}
    {t : StartTag} {url : String} :
    url ∈ handle_starttag base acc t ↔ url ∈ acc ∨
      (t.tag = "a" ∧ ∃ href, dictGet "href" t.attrs = some href ∧
        href ≠ "" ∧ is_wiki_article href = true ∧ url = urljoin base href) := by
  by_cases htag : t.tag = "a"
  · cases hd : dictGet "href" t.attrs with
    | none =>
      have hred : handle_starttag base acc t = acc := by
        unfold handle_starttag
        rw [if_pos htag, hd]
      rw [hred]
      simp [htag, hd]
    | some href =>
      have hred : handle_starttag base acc t =
          if href ≠ "" ∧ is_wiki_article href = true then
            setAdd acc (urljoin base href) else acc := by
        unfold handle_starttag
        rw [if_pos htag, hd]
      rw [hred]
      by_cases hc : href ≠ "" ∧ is_wiki_article href = true
      · rw [if_pos hc, mem_setAdd]
        simp only [htag, true_and, hd, Option.some.injEq]
        constructor
        · rintro (h | rfl)
          · exact Or.inl h
          · exact Or.inr ⟨href, rfl, hc.1, hc.2, rfl⟩
        · rintro (h | ⟨href', rfl, -, -, rfl⟩)
          · exact Or.inl h
          · exact Or.inr rfl
      · rw [if_neg hc]
        simp only [htag, true_and, hd, Option.some.injEq]
        constructor
        · exact Or.inl
        · rintro (h | ⟨href', rfl, hne, hw, rfl⟩)
          · exact h
          · exact absurd ⟨hne, hw⟩ hc
  · have hred : handle_starttag base acc t = acc := by
      unfold handle_starttag
      rw [if_neg htag]
    rw [hred]
    simp [htag]

theorem parse_links_mem_aux (base : String) (events : List StartTag) :
    ∀ (acc : List String) (url : String),
      url ∈ events.foldl (handle_starttag base) acc ↔
        url ∈ acc ∨ ∃ t ∈ events, t.tag = "a" ∧ ∃ href,
          dictGet "href" t.attrs = some href ∧ href ≠ "" ∧
          is_wiki_article href = true ∧ url = urljoin base href := by
  induction events with
  | nil =>
    intro acc url
    simp
  | cons t rest ih =>
    intro acc url
    rw [List.foldl_cons, ih, mem_handle_starttag]
    simp only [List.mem_cons]
    constructor
    · rintro ((h | h) | ⟨t', ht', hc⟩)
      · exact Or.inl h
      · exact Or.inr ⟨t, Or.inl rfl, h⟩
      · exact Or.inr ⟨t', Or.inr ht', hc⟩
    · rintro (h | ⟨t', (rfl | ht'), hc⟩)
      · exact Or.inl (Or.inl h)
      · exact Or.inl (Or.inr hc)
      · exact Or.inr ⟨t', ht', hc⟩

/-- C8 counterexample: an absolute href to a foreign host whose path is
in the article namespace is returned by the extractor, and its host
differs from the base URL's host — the same-site restriction claimed by
the spec does not hold. -/
theorem same_site_counterexample :
    "https://other.example/wiki/Page" ∈
      parse_links [atag "https://other.example/wiki/Page"]
        "https://en.wikipedia.org/wiki/Base" ∧
    (urlparse "https://other.example/wiki/Page").netloc ≠
      (urlparse "https://en.wikipedia.org/wiki/Base").netloc := by
  decide

/-- C8 amended: the extractor returns exactly the joins
`urljoin base href` of the truthy anchor hrefs accepted by
`is_wiki_article`, whose filter looks only at the href's path and
fragment — no same-site (host) restriction is applied, so absolute
hrefs to other hosts with `/wiki/` paths are included. -/
theorem parse_links_characterization (events : List StartTag)
    (base url : String) :
    url ∈ parse_links events base ↔
      ∃ t ∈ events, t.tag = "a" ∧ ∃ href,
        dictGet "href" t.attrs = some href ∧ href ≠ "" ∧
        is_wiki_article href = true ∧ url = urljoin base href := by
  rw [parse_links, parse_links_mem_aux]
  simp

/-! ## Claim C10: seed-URL validation accepts substring hosts -/

/-- C10: `is_valid_wikipedia_url` accepts exactly the URLs with scheme
http or https, `wikipedia.org` somewhere inside the netloc as a
substring, and a path starting with `/wiki/`; in particular the foreign
host `wikipedia.org.evil.example` passes the seed validation. -/
theorem is_valid_wikipedia_url_characterization :
    (∀ url, is_valid_wikipedia_url url = true ↔
      ((urlparse url).scheme = "http" ∨ (urlparse url).scheme = "https") ∧
      pyContains (urlparse url).netloc "wikipedia.org" = true ∧
      pyStartsWith (urlparse url).path "/wiki/" = true) ∧
    is_valid_wikipedia_url "https://wikipedia.org.evil.example/wiki/Page" =
      true := by
  constructor
  · intro url
    simp only [is_valid_wikipedia_url]
    split
    · rename_i h1
      constructor
      · intro hf
        exact absurd hf Bool.false_ne_true
      · rintro ⟨hA, -, -⟩
        exact absurd hA h1
    · rename_i h1
      split
      · rename_i h2
        constructor
        · intro hf
          exact absurd hf Bool.false_ne_true
        · rintro ⟨-, hB, -⟩
          exact absurd hB h2
      · rename_i h2
        split
        · rename_i h3
          constructor
          · intro hf
            exact absurd hf Bool.false_ne_true
          · rintro ⟨-, -, hC⟩
            exact absurd hC h3
        · rename_i h3
          exact ⟨fun _ => ⟨not_not.mp h1, not_not.mp h2, not_not.mp h3⟩,
            fun _ => rfl⟩
  · decide

/-! ## Step-equation lemmas for the worker semantics -/

theorem idleStep_stop {s : CrawlerState} (h : s.stop_event = true) :
    idleStep s = (s, .done) := by
  simp [idleStep, h]

theorem idleStep_empty {s : CrawlerState} (h1 : s.stop_event = false)
    (h2 : s.queue = []) : idleStep s = (s, .idle) := by
  simp [idleStep, h1, h2]

theorem idleStep_deep {s : CrawlerState} {url : String} {depth : Nat}
    {rest : List (String × Nat)} (h1 : s.stop_event = false)
    (h2 : s.queue = (url, depth) :: rest) (h3 : s.max_depth < depth) :
    idleStep s = ({ s with queue := rest }, .idle) := by
  simp [idleStep, h1, h2, h3]

theorem idleStep_dup {s : CrawlerState} {url : String} {depth : Nat}
    {rest : List (String × Nat)} (h1 : s.stop_event = false)
    (h2 : s.queue = (url, depth) :: rest) (h3 : ¬s.max_depth < depth)
    (h4 : url ∈ s.visited) :
    idleStep s = ({ s with queue := rest }, .idle) := by
  simp [idleStep, h1, h2, h3, h4]

theorem idleStep_take {s : CrawlerState} {url : String} {depth : Nat}
    {rest : List (String × Nat)} (h1 : s.stop_event = false)
    (h2 : s.queue = (url, depth) :: rest) (h3 : ¬s.max_depth < depth)
    (h4 : url ∉ s.visited) :
    idleStep s = ({ s with queue := rest }, .fetching url depth) := by
  simp [idleStep, h1, h2, h3, h4]

theorem fetchStep_none {pages : String → Option (List StartTag)}
    {s : CrawlerState} {url : String} {depth : Nat} (h : pages url = none) :
    fetchStep pages s url depth = (s, [CrawlEvent.fetch url depth]) := by
  unfold fetchStep
  rw [h]

theorem fetchStep_some {pages : String → Option (List StartTag)}
    {s : CrawlerState} {url : String} {depth : Nat}
    {markup : List StartTag} (h : pages url = some markup) :
    fetchStep pages s url depth =
      (let links := parse_links markup url
       let s2 := mark_visited (save_links s links) url depth
       { s2 with
         queue := s2.queue ++
           (links.filter (fun l => l ∉ s2.visited)).map (fun l => (l, depth + 1)),
         total_links_processed := s2.total_links_processed + 1 },
       [CrawlEvent.fetch url depth, CrawlEvent.insertVisited url depth]) := by
  unfold fetchStep
  rw [h]

theorem sysStep_none {pages : String → Option (List StartTag)}
    {sys : SysState} {i : Nat} (h : sys.workers.get? i = none) :
    sysStep pages sys i = (sys, []) := by
  unfold sysStep
  rw [h]

theorem sysStep_done {pages : String → Option (List StartTag)}
    {sys : SysState} {i : Nat} (h : sys.workers.get? i = some .done) :
    sysStep pages sys i = (sys, []) := by
  unfold sysStep
  rw [h]

theorem sysStep_idle {pages : String → Option (List StartTag)}
    {sys : SysState} {i : Nat} (h : sys.workers.get? i = some .idle) :
    sysStep pages sys i =
      ({ shared := (idleStep sys.shared).1,
         workers := sys.workers.set i (idleStep sys.shared).2 }, []) := by
  unfold sysStep
  rw [h]

theorem sysStep_fetching {pages : String → Option (List StartTag)}
    {sys : SysState} {i : Nat} {url : String} {depth : Nat}
    (h : sys.workers.get? i = some (.fetching url depth)) :
    sysStep pages sys i =
      ({ shared := (fetchStep pages sys.shared url depth).1,
         workers := sys.workers.set i .idle },
       (fetchStep pages sys.shared url depth).2) := by
  unfold sysStep
  rw [h]

/-! ## Claim C6: fetch failure drops the item and the worker continues -/

/-- C6: a worker holding a dequeued item whose fetch raises leaves every
piece of shared state untouched — visited table, links table, mirror,
queue and `total_links_processed` — enqueues no children, records no
visit, and goes back to the top of its loop (it does not terminate);
the only trace of the item is the failed fetch attempt. -/
theorem fetch_failure_drops (pages : String → Option (List StartTag))
    (sys : SysState) (i : Nat) (url : String) (depth : Nat)
    (hpc : sys.workers.get? i = some (.fetching url depth))
    (hfail : pages url = none) :
    sysStep pages sys i =
      ({ sys with workers := sys.workers.set i .idle },
       [CrawlEvent.fetch url depth]) := by
  rw [sysStep_fetching hpc, fetchStep_none hfail]

/-- Witness for C6: one worker holding an item whose fetch fails. -/
theorem fetch_failure_drops_witness :
    sysStep noPages
        { shared := Crawler.init "a" 6, workers := [WorkerPC.fetching "a" 0] }
        0 =
      ({ shared := Crawler.init "a" 6, workers := [WorkerPC.idle] },
       [CrawlEvent.fetch "a" 0]) :=
  fetch_failure_drops noPages
    { shared := Crawler.init "a" 6, workers := [WorkerPC.fetching "a" 0] }
    0 "a" 0 rfl rfl

/-! ## Claim C4: the worker loop cannot exit on natural completion -/

theorem sysStep_stop_event (pages : String → Option (List StartTag))
    (sys : SysState) (i : Nat) :
    (sysStep pages sys i).1.shared.stop_event = sys.shared.stop_event := by
  cases hg : sys.workers.get? i with
  | none => rw [sysStep_none hg]
  | some pc =>
    cases pc with
    | done => rw [sysStep_done hg]
    | idle =>
      rw [sysStep_idle hg]
      show (idleStep sys.shared).1.stop_event = _
      cases hstop : sys.shared.stop_event with
      | true =>
        rw [idleStep_stop hstop]
        exact hstop
      | false =>
        cases hq : sys.shared.queue with
        | nil =>
          rw [idleStep_empty hstop hq]
          exact hstop
        | cons it rest =>
          obtain ⟨url, depth⟩ := it
          by_cases hd : sys.shared.max_depth < depth
          · rw [idleStep_deep hstop hq hd]
            exact hstop
          · by_cases hv : url ∈ sys.shared.visited
            · rw [idleStep_dup hstop hq hd hv]
              exact hstop
            · rw [idleStep_take hstop hq hd hv]
              exact hstop
    | fetching url depth =>
      rw [sysStep_fetching hg]
      show (fetchStep pages sys.shared url depth).1.stop_event = _
      cases hp : pages url with
      | none =>
        rw [fetchStep_none hp]
      | some markup =>
        rw [fetchStep_some hp]
        rfl

theorem sysStep_no_done (pages : String → Option (List StartTag))
    (sys : SysState) (i : Nat) (hs : sys.shared.stop_event = false)
    (hd : WorkerPC.done ∉ sys.workers) :
    WorkerPC.done ∉ (sysStep pages sys i).1.workers := by
  have hset : ∀ pc' : WorkerPC, pc' ≠ .done →
      WorkerPC.done ∉ sys.workers.set i pc' := by
    intro pc' hne hmem
    rcases List.mem_or_eq_of_mem_set hmem with h | h
    · exact hd h
    · exact hne h.symm
  cases hg : sys.workers.get? i with
  | none =>
    rw [sysStep_none hg]
    exact hd
  | some pc =>
    cases pc with
    | done =>
      rw [sysStep_done hg]
      exact hd
    | idle =>
      rw [sysStep_idle hg]
      apply hset
      cases hq : sys.shared.queue with
      | nil =>
        rw [idleStep_empty hs hq]
        exact fun h => WorkerPC.noConfusion h
      | cons it rest =>
        obtain ⟨url, depth⟩ := it
        by_cases hdep : sys.shared.max_depth < depth
        · rw [idleStep_deep hs hq hdep]
          exact fun h => WorkerPC.noConfusion h
        · by_cases hv : url ∈ sys.shared.visited
          · rw [idleStep_dup hs hq hdep hv]
            exact fun h => WorkerPC.noConfusion h
          · rw [idleStep_take hs hq hdep hv]
            exact fun h => WorkerPC.noConfusion h
    | fetching url depth =>
      rw [sysStep_fetching hg]
      exact hset _ (fun h => WorkerPC.noConfusion h)

/-- C4: the crawl cannot terminate naturally.  The worker loop's only
exit is observing `stop_event`, and no transition of the system ever
sets `stop_event` (only an external `KeyboardInterrupt` does); moreover
on an empty frontier an idle worker's step is a pure no-op.  So when the
queue drains and no stop signal was raised every worker keeps polling
forever and `Crawler.crawl`'s `thread.join()` never returns — the
process does not terminate, contradicting the claimed completion
behavior. -/
theorem worker_never_exits :
    (∀ s : CrawlerState, s.stop_event = false → s.queue = [] →
      idleStep s = (s, .idle)) ∧
    (∀ (pages : String → Option (List StartTag)) (sched : List Nat)
      (sys : SysState), sys.shared.stop_event = false →
      WorkerPC.done ∉ sys.workers →
      WorkerPC.done ∉ (sysRun pages sys sched).1.workers) := by
  constructor
  · exact fun s h1 h2 => idleStep_empty h1 h2
  · intro pages sched
    induction sched with
    | nil =>
      intro sys h1 h2
      exact h2
    | cons i sched ih =>
      intro sys h1 h2
      unfold sysRun
      exact ih _ (by rw [sysStep_stop_event]; exact h1)
        (sysStep_no_done pages sys i h1 h2)

/-- Witness for C4: a one-worker pool over a linkless seed page; after
the whole crawl the queue is empty, the stop flag is still unset, and
the worker is still in its loop. -/
theorem worker_never_exits_witness :
    ((Crawler.init "a" 6).stop_event = false ∧ (Crawler.init "a" 6).queue ≠ [] ∧
      idleStep { Crawler.init "a" 6 with queue := [] } =
        ({ Crawler.init "a" 6 with queue := [] }, .idle)) ∧
    ((sysInit "a" 6 1).shared.stop_event = false ∧
      WorkerPC.done ∉ (sysInit "a" 6 1).workers ∧
      WorkerPC.done ∉ (sysRun emptyPages (sysInit "a" 6 1) [0, 0, 0]).1.workers) :=
  ⟨⟨rfl, by decide, worker_never_exits.1 _ rfl rfl⟩,
   ⟨rfl, by decide,
    worker_never_exits.2 emptyPages [0, 0, 0] (sysInit "a" 6 1) rfl (by decide)⟩⟩

/-! ## Store-operation lemmas -/

theorem visitedTable_mark_visited (s : CrawlerState) (url : String)
    (depth : Nat) :
    (mark_visited s url depth).visitedTable =
      if s.visitedTable.any (fun r => r.1 == url) = true then s.visitedTable
      else s.visitedTable ++ [(url, depth)] := rfl

theorem visited_mark_visited (s : CrawlerState) (url : String) (depth : Nat) :
    (mark_visited s url depth).visited = setAdd s.visited url := rfl

theorem mem_mark_visited_table {s : CrawlerState} {url : String}
    {depth : Nat} {r : String × Nat}
    (h : r ∈ (mark_visited s url depth).visitedTable) :
    r ∈ s.visitedTable ∨ r = (url, depth) := by
  rw [visitedTable_mark_visited] at h
  by_cases hc : s.visitedTable.any (fun x => x.1 == url) = true
  · rw [if_pos hc] at h
    exact Or.inl h
  · rw [if_neg hc] at h
    rcases List.mem_append.mp h with h2 | h2
    · exact Or.inl h2
    · exact Or.inr (List.mem_singleton.mp h2)

theorem mem_visitedKeys_mark_iff {s : CrawlerState} {url : String}
    {depth : Nat} {a : String} :
    a ∈ visitedKeys (mark_visited s url depth) ↔
      a ∈ visitedKeys s ∨ a = url := by
  unfold visitedKeys
  rw [visitedTable_mark_visited]
  by_cases hc : s.visitedTable.any (fun r => r.1 == url) = true
  · rw [if_pos hc]
    exact ⟨Or.inl, fun h => h.elim id (fun h => h ▸ any_key_iff.mp hc)⟩
  · rw [if_neg hc]
    simp [List.map_append]

theorem foldl_ins_mem {links : List String} :
    ∀ {t : List String} {a : String}, (a ∈ t ∨ a ∈ links) →
      a ∈ links.foldl (fun t l => if l ∈ t then t else t ++ [l]) t := by
  induction links with
  | nil =>
    intro t a h
    rcases h with h | h
    · exact h
    · cases h
  | cons l rest ih =>
    intro t a h
    rw [List.foldl_cons]
    apply ih
    rcases h with h | h
    · left
      by_cases hl : l ∈ t
      · rwa [if_pos hl]
      · rw [if_neg hl]
        exact List.mem_append_left _ h
    · rcases List.mem_cons.mp h with rfl | h
      · left
        by_cases hl : a ∈ t
        · rwa [if_pos hl]
        · rw [if_neg hl]
          exact List.mem_append_right _ (List.mem_singleton_self a)
      · right
        exact h

theorem save_links_mem {s : CrawlerState} {links : List String} {a : String}
    (h : a ∈ s.linksTable ∨ a ∈ links) :
    a ∈ (save_links s links).linksTable :=
  foldl_ins_mem h

/-- Projection facts of a successful `fetchStep`, phrased through
`save_links` and `mark_visited`. -/
theorem fetchStep_some_shared {pages : String → Option (List StartTag)}
    {s : CrawlerState} {url : String} {depth : Nat} {markup : List StartTag}
    (h : pages url = some markup) :
    (fetchStep pages s url depth).1.visitedTable =
        (mark_visited (save_links s (parse_links markup url)) url
          depth).visitedTable ∧
      (fetchStep pages s url depth).1.visited = setAdd s.visited url ∧
      (fetchStep pages s url depth).1.linksTable =
        (save_links s (parse_links markup url)).linksTable ∧
      (fetchStep pages s url depth).1.queue =
        s.queue ++ ((parse_links markup url).filter
          (fun l => l ∉ setAdd s.visited url)).map (fun l => (l, depth + 1)) ∧
      (fetchStep pages s url depth).2 =
        [CrawlEvent.fetch url depth, CrawlEvent.insertVisited url depth] := by
  rw [fetchStep_some h]
  exact ⟨rfl, rfl, rfl, rfl, rfl⟩

/-- Membership of a `fetching` program counter survives `List.set` when
it was either already present or is the value being written. -/
theorem fetching_mem_set {workers : List WorkerPC} {i : Nat}
    {pc' : WorkerPC} {P : String → Nat → Prop}
    (hall : ∀ url dep, WorkerPC.fetching url dep ∈ workers → P url dep)
    (hpc' : ∀ url dep, pc' = WorkerPC.fetching url dep → P url dep) :
    ∀ url dep, WorkerPC.fetching url dep ∈ workers.set i pc' → P url dep := by
  intro url dep hmem
  rcases List.mem_or_eq_of_mem_set hmem with h | h
  · exact hall url dep h
  · exact hpc' url dep h.symm

/-- Exhaustive description of the loop-head step. -/
theorem idleStep_cases (s : CrawlerState) :
    (idleStep s = (s, .done)) ∨
    (idleStep s = (s, .idle)) ∨
    (∃ url depth rest, s.queue = (url, depth) :: rest ∧
      idleStep s = ({ s with queue := rest }, .idle)) ∨
    (∃ url depth rest, s.queue = (url, depth) :: rest ∧
      ¬s.max_depth < depth ∧ url ∉ s.visited ∧
      idleStep s = ({ s with queue := rest }, .fetching url depth)) := by
  by_cases hstop : s.stop_event = true
  · exact Or.inl (idleStep_stop hstop)
  · have hstop' : s.stop_event = false := by
      revert hstop
      cases s.stop_event <;> simp
    cases hq : s.queue with
    | nil => exact Or.inr (Or.inl (idleStep_empty hstop' hq))
    | cons it rest =>
      obtain ⟨url, depth⟩ := it
      by_cases hd : s.max_depth < depth
      · exact Or.inr (Or.inr (Or.inl
          ⟨url, depth, rest, rfl, idleStep_deep hstop' hq hd⟩))
      · by_cases hv : url ∈ s.visited
        · exact Or.inr (Or.inr (Or.inl
            ⟨url, depth, rest, rfl, idleStep_dup hstop' hq hd hv⟩))
        · exact Or.inr (Or.inr (Or.inr
            ⟨url, depth, rest, rfl, hd, hv, idleStep_take hstop' hq hd hv⟩))

theorem fetchStep_max_depth (pages : String → Option (List StartTag))
    (s : CrawlerState) (url : String) (depth : Nat) :
    (fetchStep pages s url depth).1.max_depth = s.max_depth := by
  cases hp : pages url with
  | none => rw [fetchStep_none hp]
  | some markup =>
    rw [fetchStep_some hp]
    rfl

theorem sysRun_nil {pages : String → Option (List StartTag)}
    {sys : SysState} : sysRun pages sys [] = (sys, []) := rfl

theorem sysRun_cons {pages : String → Option (List StartTag)}
    {sys : SysState} {i : Nat} {sched : List Nat} :
    sysRun pages sys (i :: sched) =
      ((sysRun pages (sysStep pages sys i).1 sched).1,
       (sysStep pages sys i).2 ++
         (sysRun pages (sysStep pages sys i).1 sched).2) := rfl

/-! ## Claim C1: the depth bound -/

theorem sysStep_depth_inv (pages : String → Option (List StartTag))
    {d : Nat} (sys : SysState) (i : Nat)
    (hmd : sys.shared.max_depth = d)
    (hpc : ∀ url dep, WorkerPC.fetching url dep ∈ sys.workers → dep ≤ d)
    (htb : ∀ r ∈ sys.shared.visitedTable, r.2 ≤ d) :
    (sysStep pages sys i).1.shared.max_depth = d ∧
    (∀ url dep,
      WorkerPC.fetching url dep ∈ (sysStep pages sys i).1.workers → dep ≤ d) ∧
    (∀ r ∈ (sysStep pages sys i).1.shared.visitedTable, r.2 ≤ d) ∧
    (∀ url dep,
      CrawlEvent.fetch url dep ∈ (sysStep pages sys i).2 ∨
      CrawlEvent.insertVisited url dep ∈ (sysStep pages sys i).2 →
      dep ≤ d) := by
  cases hg : sys.workers.get? i with
  | none =>
    rw [sysStep_none hg]
    exact ⟨hmd, hpc, htb, by simp⟩
  | some pc =>
    cases pc with
    | done =>
      rw [sysStep_done hg]
      exact ⟨hmd, hpc, htb, by simp⟩
    | idle =>
      rw [sysStep_idle hg]
      rcases idleStep_cases sys.shared with heq | heq |
        ⟨url, depth, rest, hq, heq⟩ | ⟨url, depth, rest, hq, hd, hv, heq⟩ <;>
        rw [heq]
      · exact ⟨hmd,
          fetching_mem_set hpc (fun _ _ h => WorkerPC.noConfusion h), htb,
          by simp⟩
      · exact ⟨hmd,
          fetching_mem_set hpc (fun _ _ h => WorkerPC.noConfusion h), htb,
          by simp⟩
      · exact ⟨hmd,
          fetching_mem_set hpc (fun _ _ h => WorkerPC.noConfusion h), htb,
          by simp⟩
      · refine ⟨hmd, fetching_mem_set hpc ?_, htb, by simp⟩
        intro url' dep' h
        injection h with h1 h2
        subst h1
        subst h2
        exact hmd ▸ Nat.le_of_not_lt hd
    | fetching url dep =>
      have hdep : dep ≤ d := hpc url dep (List.get?_mem hg)
      rw [sysStep_fetching hg]
      cases hp : pages url with
      | none =>
        rw [fetchStep_none hp]
        refine ⟨hmd,
          fetching_mem_set hpc (fun _ _ h => WorkerPC.noConfusion h), htb, ?_⟩
        intro url' dep' h
        rcases h with h | h
        · injection List.mem_singleton.mp h with h1 h2
          subst h2
          exact hdep
        · exact CrawlEvent.noConfusion (List.mem_singleton.mp h)
      | some markup =>
        obtain ⟨hvt, -, -, -, hev⟩ :=
          @fetchStep_some_shared pages sys.shared url dep markup hp
        refine ⟨(fetchStep_max_depth pages sys.shared url dep).trans hmd,
          fetching_mem_set hpc (fun _ _ h => WorkerPC.noConfusion h), ?_, ?_⟩
        · intro r hr
          rw [hvt] at hr
          rcases mem_mark_visited_table hr with h2 | h2
          · exact htb r h2
          · rw [h2]
            exact hdep
        · intro url' dep' h
          rw [hev] at h
          rcases h with h | h
          · rcases List.mem_cons.mp h with h2 | h2
            · injection h2 with h1 h2
              subst h2
              exact hdep
            · exact CrawlEvent.noConfusion (List.mem_singleton.mp h2)
          · rcases List.mem_cons.mp h with h2 | h2
            · exact CrawlEvent.noConfusion h2
            · injection List.mem_singleton.mp h2 with h1 h2
              subst h2
              exact hdep

theorem sysRun_depth_inv (pages : String → Option (List StartTag))
    {d : Nat} (sched : List Nat) :
    ∀ (sys : SysState), sys.shared.max_depth = d →
    (∀ url dep, WorkerPC.fetching url dep ∈ sys.workers → dep ≤ d) →
    (∀ r ∈ sys.shared.visitedTable, r.2 ≤ d) →
    (sysRun pages sys sched).1.shared.max_depth = d ∧
    (∀ url dep, WorkerPC.fetching url dep ∈ (sysRun pages sys sched).1.workers →
      dep ≤ d) ∧
    (∀ r ∈ (sysRun pages sys sched).1.shared.visitedTable, r.2 ≤ d) ∧
    (∀ url dep,
      CrawlEvent.fetch url dep ∈ (sysRun pages sys sched).2 ∨
      CrawlEvent.insertVisited url dep ∈ (sysRun pages sys sched).2 →
      dep ≤ d) := by
  induction sched with
  | nil =>
    intro sys h1 h2 h3
    rw [sysRun_nil]
    refine ⟨h1, h2, h3, ?_⟩
    intro url dep h
    rcases h with h | h <;> exact absurd h (List.not_mem_nil _)
  | cons i sched ih =>
    intro sys h1 h2 h3
    rw [sysRun_cons]
    obtain ⟨g1, g2, g3, g4⟩ := sysStep_depth_inv pages sys i h1 h2 h3
    obtain ⟨r1, r2, r3, r4⟩ := ih (sysStep pages sys i).1 g1 g2 g3
    refine ⟨r1, r2, r3, ?_⟩
    intro url dep h
    rcases h with h | h <;> rcases List.mem_append.mp h with h2 | h2
    · exact g4 url dep (Or.inl h2)
    · exact r4 url dep (Or.inl h2)
    · exact g4 url dep (Or.inr h2)
    · exact r4 url dep (Or.inr h2)

/-- C1: over any pages, any pool size and any interleaving starting
from the seed, no fetch is ever attempted for an item whose depth
exceeds `max_depth`, `mark_visited` is never called with a depth
exceeding `max_depth`, and every record in the visited store stays
within the bound — items dequeued beyond the bound are dropped before
fetching. -/
theorem depth_bound (pages : String → Option (List StartTag)) (u : String)
    (d n : Nat) (sched : List Nat) :
    (∀ url dep,
      CrawlEvent.fetch url dep ∈ (sysRun pages (sysInit u d n) sched).2 ∨
      CrawlEvent.insertVisited url dep ∈
        (sysRun pages (sysInit u d n) sched).2 → dep ≤ d) ∧
    (∀ r ∈ (sysRun pages (sysInit u d n) sched).1.shared.visitedTable,
      r.2 ≤ d) := by
  obtain ⟨-, -, h3, h4⟩ := sysRun_depth_inv pages sched (sysInit u d n) rfl
    (fun url dep h => absurd (List.eq_of_mem_replicate h)
      (fun hh => WorkerPC.noConfusion hh))
    (fun r hr => absurd hr (List.not_mem_nil r))
  exact ⟨h4, h3⟩

/-- Witness for C1: a run that does fetch and record the seed. -/
theorem depth_bound_witness :
    (CrawlEvent.fetch "a" 0 ∈ (sysRun emptyPages (sysInit "a" 6 1) [0, 0]).2 ∨
      CrawlEvent.insertVisited "a" 0 ∈
        (sysRun emptyPages (sysInit "a" 6 1) [0, 0]).2) ∧
    (0 : Nat) ≤ 6 ∧
    ("a", 0) ∈ (sysRun emptyPages (sysInit "a" 6 1) [0, 0]).1.shared.visitedTable ∧
    (0 : Nat) ≤ 6 :=
  ⟨Or.inl (by decide), (depth_bound emptyPages "a" 6 1 [0, 0]).1 "a" 0
      (Or.inl (by decide)),
    by decide, (depth_bound emptyPages "a" 6 1 [0, 0]).2 ("a", 0) (by decide)⟩

/-! ## Claim C3: the discovered-link store versus the visited store -/

/-- C3 counterexample: the seed is recorded in the visited store when
its page is processed, but `save_links` only ever stores extracted link
targets, so after crawling a linkless seed page the visited store holds
the seed while the links store is empty — not a superset. -/
theorem discovered_superset_counterexample :
    "a" ∈ visitedKeys (sysRun emptyPages (sysInit "a" 6 1) [0, 0]).1.shared ∧
    "a" ∉ (sysRun emptyPages (sysInit "a" 6 1) [0, 0]).1.shared.linksTable := by
  decide

theorem sysStep_superset_inv (pages : String → Option (List StartTag))
    {u0 : String} (sys : SysState) (i : Nat)
    (htb : ∀ a ∈ visitedKeys sys.shared, a ∈ sys.shared.linksTable ∨ a = u0)
    (hq : ∀ it ∈ sys.shared.queue, it.1 ∈ sys.shared.linksTable ∨ it.1 = u0)
    (hpc : ∀ url dep, WorkerPC.fetching url dep ∈ sys.workers →
      url ∈ sys.shared.linksTable ∨ url = u0) :
    (∀ a ∈ visitedKeys (sysStep pages sys i).1.shared,
      a ∈ (sysStep pages sys i).1.shared.linksTable ∨ a = u0) ∧
    (∀ it ∈ (sysStep pages sys i).1.shared.queue,
      it.1 ∈ (sysStep pages sys i).1.shared.linksTable ∨ it.1 = u0) ∧
    (∀ url dep, WorkerPC.fetching url dep ∈ (sysStep pages sys i).1.workers →
      url ∈ (sysStep pages sys i).1.shared.linksTable ∨ url = u0) := by
  cases hg : sys.workers.get? i with
  | none =>
    rw [sysStep_none hg]
    exact ⟨htb, hq, hpc⟩
  | some pc =>
    cases pc with
    | done =>
      rw [sysStep_done hg]
      exact ⟨htb, hq, hpc⟩
    | idle =>
      rw [sysStep_idle hg]
      rcases idleStep_cases sys.shared with heq | heq |
        ⟨url, depth, rest, hqe, heq⟩ | ⟨url, depth, rest, hqe, hd, hv, heq⟩ <;>
        rw [heq]
      · exact ⟨htb, hq,
          fetching_mem_set hpc (fun _ _ h => WorkerPC.noConfusion h)⟩
      · exact ⟨htb, hq,
          fetching_mem_set hpc (fun _ _ h => WorkerPC.noConfusion h)⟩
      · refine ⟨htb, ?_,
          fetching_mem_set hpc (fun _ _ h => WorkerPC.noConfusion h)⟩
        intro it hit
        exact hq it (by rw [hqe]; exact List.mem_cons_of_mem _ hit)
      · refine ⟨htb, ?_, fetching_mem_set hpc ?_⟩
        · intro it hit
          exact hq it (by rw [hqe]; exact List.mem_cons_of_mem _ hit)
        · intro url' dep' h
          injection h with h1 h2
          subst h1
          exact hq (url, depth)
            (by rw [hqe]; exact List.mem_cons_self _ _)
    | fetching url dep =>
      have hurl := hpc url dep (List.get?_mem hg)
      rw [sysStep_fetching hg]
      cases hp : pages url with
      | none =>
        rw [fetchStep_none hp]
        exact ⟨htb, hq,
          fetching_mem_set hpc (fun _ _ h => WorkerPC.noConfusion h)⟩
      | some markup =>
        rw [fetchStep_some hp]
        refine ⟨?_, ?_, ?_⟩
        · intro a ha
          have ha' : a ∈ visitedKeys (mark_visited
              (save_links sys.shared (parse_links markup url)) url dep) := ha
          rcases mem_visitedKeys_mark_iff.mp ha' with h2 | rfl
          · have h3 : a ∈ visitedKeys sys.shared := h2
            rcases htb a h3 with h4 | h4
            · exact Or.inl (save_links_mem (Or.inl h4))
            · exact Or.inr h4
          · rcases hurl with h4 | h4
            · exact Or.inl (save_links_mem (Or.inl h4))
            · exact Or.inr h4
        · intro it hit
          have hit' : it ∈ sys.shared.queue ++
              ((parse_links markup url).filter
                (fun l => l ∉ setAdd sys.shared.visited url)).map
                (fun l => (l, dep + 1)) := hit
          rcases List.mem_append.mp hit' with h2 | h2
          · rcases hq it h2 with h4 | h4
            · exact Or.inl (save_links_mem (Or.inl h4))
            · exact Or.inr h4
          · rcases List.mem_map.mp h2 with ⟨l, hl, rfl⟩
            exact Or.inl (save_links_mem (Or.inr (List.mem_of_mem_filter hl)))
        · intro url' dep' h
          rcases List.mem_or_eq_of_mem_set h with h2 | h2
          · rcases hpc url' dep' h2 with h4 | h4
            · exact Or.inl (save_links_mem (Or.inl h4))
            · exact Or.inr h4
          · exact WorkerPC.noConfusion h2

theorem sysRun_superset_inv (pages : String → Option (List StartTag))
    {u0 : String} (sched : List Nat) :
    ∀ (sys : SysState),
    (∀ a ∈ visitedKeys sys.shared, a ∈ sys.shared.linksTable ∨ a = u0) →
    (∀ it ∈ sys.shared.queue, it.1 ∈ sys.shared.linksTable ∨ it.1 = u0) →
    (∀ url dep, WorkerPC.fetching url dep ∈ sys.workers →
      url ∈ sys.shared.linksTable ∨ url = u0) →
    ∀ a ∈ visitedKeys (sysRun pages sys sched).1.shared,
      a ∈ (sysRun pages sys sched).1.shared.linksTable ∨ a = u0 := by
  induction sched with
  | nil =>
    intro sys h1 h2 h3
    rw [sysRun_nil]
    exact h1
  | cons i sched ih =>
    intro sys h1 h2 h3
    rw [sysRun_cons]
    obtain ⟨g1, g2, g3⟩ := sysStep_superset_inv pages sys i h1 h2 h3
    exact ih (sysStep pages sys i).1 g1 g2 g3

/-- C3 amended: at every point of any run from a fresh store, every URL
in the visited store is either in the discovered-link store or is the
seed itself; only the seed can be visited yet undiscovered (and the
counterexample shows it actually can be). -/
theorem discovered_superset_amended (pages : String → Option (List StartTag))
    (u : String) (d n : Nat) (sched : List Nat) (url : String)
    (h : url ∈ visitedKeys (sysRun pages (sysInit u d n) sched).1.shared) :
    url ∈ (sysRun pages (sysInit u d n) sched).1.shared.linksTable ∨
      url = u := by
  refine sysRun_superset_inv pages sched (sysInit u d n) ?_ ?_ ?_ url h
  · intro a ha
    exact absurd ha (List.not_mem_nil a)
  · intro it hit
    rcases List.mem_singleton.mp hit with rfl
    exact Or.inr rfl
  · intro url' dep' hmem
    exact absurd (List.eq_of_mem_replicate hmem)
      (fun hh => WorkerPC.noConfusion hh)

/-- Witness for C3 amended: in the counterexample run the visited seed
is accounted for by the `url = seed` disjunct. -/
theorem discovered_superset_amended_witness :
    "a" ∈ visitedKeys (sysRun emptyPages (sysInit "a" 6 1) [0, 0]).1.shared ∧
    ("a" ∈ (sysRun emptyPages (sysInit "a" 6 1) [0, 0]).1.shared.linksTable ∨
      "a" = "a") :=
  ⟨by decide,
   discovered_superset_amended emptyPages "a" 6 1 [0, 0] "a" (by decide)⟩

/-! ## Claim C5: the in-memory mirror versus the durable store -/

/-- C5 counterexample: when the store file already holds a record from
a previous run, `Crawler.__init__` still starts with an empty in-memory
mirror, so `is_visited` answers true for a URL the mirror does not
contain — the two disagree at session start. -/
theorem mirror_store_disagree_counterexample :
    is_visited (Crawler.initWith [("u", 0)] [] "a" 6) "u" = true ∧
    "u" ∉ (Crawler.initWith [("u", 0)] [] "a" 6).visited := by
  decide

theorem sysStep_mirror_inv (pages : String → Option (List StartTag))
    (sys : SysState) (i : Nat)
    (h : ∀ a, a ∈ sys.shared.visited ↔ a ∈ visitedKeys sys.shared) :
    ∀ a, a ∈ (sysStep pages sys i).1.shared.visited ↔
      a ∈ visitedKeys (sysStep pages sys i).1.shared := by
  cases hg : sys.workers.get? i with
  | none =>
    rw [sysStep_none hg]
    exact h
  | some pc =>
    cases pc with
    | done =>
      rw [sysStep_done hg]
      exact h
    | idle =>
      rw [sysStep_idle hg]
      rcases idleStep_cases sys.shared with heq | heq |
        ⟨url, depth, rest, hqe, heq⟩ | ⟨url, depth, rest, hqe, hd, hv, heq⟩ <;>
        rw [heq] <;> exact h
    | fetching url dep =>
      rw [sysStep_fetching hg]
      cases hp : pages url with
      | none =>
        rw [fetchStep_none hp]
        exact h
      | some markup =>
        rw [fetchStep_some hp]
        intro a
        constructor
        · intro ha
          have ha' : a ∈ setAdd sys.shared.visited url := ha
          show a ∈ visitedKeys (mark_visited
            (save_links sys.shared (parse_links markup url)) url dep)
          rcases mem_setAdd.mp ha' with h2 | rfl
          · exact mem_visitedKeys_mark_iff.mpr (Or.inl ((h a).mp h2))
          · exact mem_visitedKeys_mark_iff.mpr (Or.inr rfl)
        · intro ha
          have ha' : a ∈ visitedKeys (mark_visited
              (save_links sys.shared (parse_links markup url)) url dep) := ha
          show a ∈ setAdd sys.shared.visited url
          rcases mem_visitedKeys_mark_iff.mp ha' with h2 | rfl
          · exact mem_setAdd.mpr (Or.inl ((h a).mpr h2))
          · exact mem_setAdd.mpr (Or.inr rfl)

theorem sysRun_mirror_inv (pages : String → Option (List StartTag))
    (sched : List Nat) : ∀ (sys : SysState),
    (∀ a, a ∈ sys.shared.visited ↔ a ∈ visitedKeys sys.shared) →
    ∀ a, a ∈ (sysRun pages sys sched).1.shared.visited ↔
      a ∈ visitedKeys (sysRun pages sys sched).1.shared := by
  induction sched with
  | nil =>
    intro sys h
    rw [sysRun_nil]
    exact h
  | cons i sched ih =>
    intro sys h
    rw [sysRun_cons]
    exact ih _ (sysStep_mirror_inv pages sys i h)

/-- C5 amended: within a single run over a fresh (empty) store file the
mirror and the store never disagree — at every point of any schedule a
URL is in the in-memory mirror exactly when it is in the visited store.
The agreement claimed for pre-populated store files fails (see the
counterexample): the mirror always starts empty while the durable store
persists. -/
theorem mirror_matches_store_in_run (pages : String → Option (List StartTag))
    (u : String) (d n : Nat) (sched : List Nat) (url : String) :
    url ∈ (sysRun pages (sysInit u d n) sched).1.shared.visited ↔
      url ∈ visitedKeys (sysRun pages (sysInit u d n) sched).1.shared :=
  sysRun_mirror_inv pages sched (sysInit u d n)
    (fun a => ⟨fun h => absurd h (List.not_mem_nil a),
      fun h => absurd h (List.not_mem_nil a)⟩) url

/-! ## Claim C9: duplicate fetches under concurrency -/

theorem fetchCount_nil (a : String) : fetchCount [] a = 0 := rfl

theorem fetchCount_append (t1 t2 : List CrawlEvent) (a : String) :
    fetchCount (t1 ++ t2) a = fetchCount t1 a + fetchCount t2 a := by
  unfold fetchCount
  rw [List.filter_append, List.length_append]

theorem fetchCount_fetch_cons (u : String) (d2 : Nat) (t : List CrawlEvent)
    (a : String) :
    fetchCount (CrawlEvent.fetch u d2 :: t) a =
      (if u = a then 1 else 0) + fetchCount t a := by
  unfold fetchCount
  rw [List.filter_cons]
  by_cases h : u = a
  · subst h
    simp [Nat.add_comm]
  · simp [h]

theorem fetchCount_insert_cons (u : String) (d2 : Nat) (t : List CrawlEvent)
    (a : String) :
    fetchCount (CrawlEvent.insertVisited u d2 :: t) a = fetchCount t a := by
  unfold fetchCount
  rw [List.filter_cons]
  simp

/-- C9 counterexample: on the `pagesDup` site, with two workers and the
`dupSched` interleaving, the URL `.../wiki/B` ends up in the visited
store yet is fetched twice — the two workers dequeue B (enqueued twice,
from A's page and from C's page), both pass the mirror check before
either commits, and both fetch. -/
theorem duplicate_fetch_counterexample :
    "http://x/wiki/B" ∈ visitedKeys
      (sysRun pagesDup (sysInit "http://x/wiki/A" 6 2) dupSched).1.shared ∧
    2 ≤ fetchCount
      (sysRun pagesDup (sysInit "http://x/wiki/A" 6 2) dupSched).2
      "http://x/wiki/B" := by
  decide

theorem sysStep_seq_inv (pages : String → Option (List StartTag))
    (sys : SysState) (i : Nat) (cnt : String → Nat)
    (hone : ∃ pc, sys.workers = [pc])
    (hmir : ∀ a, a ∈ sys.shared.visited ↔ a ∈ visitedKeys sys.shared)
    (hkf : ∀ a, a ∈ visitedKeys sys.shared → pages a ≠ none)
    (hc1 : ∀ a, pages a ≠ none → cnt a ≤ 1)
    (hc2 : ∀ a, pages a ≠ none → 1 ≤ cnt a → a ∈ sys.shared.visited)
    (hheld : ∀ a dep, sys.workers = [WorkerPC.fetching a dep] →
      a ∉ sys.shared.visited) :
    (∃ pc, (sysStep pages sys i).1.workers = [pc]) ∧
    (∀ a, a ∈ (sysStep pages sys i).1.shared.visited ↔
      a ∈ visitedKeys (sysStep pages sys i).1.shared) ∧
    (∀ a, a ∈ visitedKeys (sysStep pages sys i).1.shared → pages a ≠ none) ∧
    (∀ a, pages a ≠ none →
      cnt a + fetchCount (sysStep pages sys i).2 a ≤ 1) ∧
    (∀ a, pages a ≠ none → 1 ≤ cnt a + fetchCount (sysStep pages sys i).2 a →
      a ∈ (sysStep pages sys i).1.shared.visited) ∧
    (∀ a dep, (sysStep pages sys i).1.workers = [WorkerPC.fetching a dep] →
      a ∉ (sysStep pages sys i).1.shared.visited) := by
  obtain ⟨pc0, hw⟩ := hone
  cases hg : sys.workers.get? i with
  | none =>
    rw [sysStep_none hg]
    refine ⟨⟨pc0, hw⟩, hmir, hkf, ?_, ?_, hheld⟩
    · intro a ha
      rw [fetchCount_nil, Nat.add_zero]
      exact hc1 a ha
    · intro a ha h1
      rw [fetchCount_nil, Nat.add_zero] at h1
      exact hc2 a ha h1
  | some pc =>
    have hi0 : i = 0 ∧ pc = pc0 := by
      rw [hw] at hg
      cases i with
      | zero =>
        rw [List.get?_cons_zero] at hg
        exact ⟨rfl, (Option.some.inj hg).symm⟩
      | succ j =>
        rw [List.get?_cons_succ, List.get?_nil] at hg
        exact absurd hg (fun hh => Option.noConfusion hh)
    obtain ⟨hi, hpc0⟩ := hi0
    subst hi
    subst hpc0
    have hwset : ∀ x : WorkerPC, sys.workers.set 0 x = [x] := by
      intro x
      rw [hw]
      rfl
    cases pc with
    | done =>
      rw [sysStep_done hg]
      refine ⟨⟨_, hw⟩, hmir, hkf, ?_, ?_, hheld⟩
      · intro a ha
        rw [fetchCount_nil, Nat.add_zero]
        exact hc1 a ha
      · intro a ha h1
        rw [fetchCount_nil, Nat.add_zero] at h1
        exact hc2 a ha h1
    | idle =>
      rw [sysStep_idle hg]
      rcases idleStep_cases sys.shared with heq | heq |
        ⟨url, depth, rest, hqe, heq⟩ | ⟨url, depth, rest, hqe, hd, hv, heq⟩ <;>
        rw [heq]
      · refine ⟨⟨_, hwset _⟩, hmir, hkf, ?_, ?_, ?_⟩
        · intro a ha
          rw [fetchCount_nil, Nat.add_zero]
          exact hc1 a ha
        · intro a ha h1
          rw [fetchCount_nil, Nat.add_zero] at h1
          exact hc2 a ha h1
        · intro a dep2 h
          rw [hwset] at h
          injection h with h1 h2
          exact WorkerPC.noConfusion h1
      · refine ⟨⟨_, hwset _⟩, hmir, hkf, ?_, ?_, ?_⟩
        · intro a ha
          rw [fetchCount_nil, Nat.add_zero]
          exact hc1 a ha
        · intro a ha h1
          rw [fetchCount_nil, Nat.add_zero] at h1
          exact hc2 a ha h1
        · intro a dep2 h
          rw [hwset] at h
          injection h with h1 h2
          exact WorkerPC.noConfusion h1
      · refine ⟨⟨_, hwset _⟩, hmir, hkf, ?_, ?_, ?_⟩
        · intro a ha
          rw [fetchCount_nil, Nat.add_zero]
          exact hc1 a ha
        · intro a ha h1
          rw [fetchCount_nil, Nat.add_zero] at h1
          exact hc2 a ha h1
        · intro a dep2 h
          rw [hwset] at h
          injection h with h1 h2
          exact WorkerPC.noConfusion h1
      · refine ⟨⟨_, hwset _⟩, hmir, hkf, ?_, ?_, ?_⟩
        · intro a ha
          rw [fetchCount_nil, Nat.add_zero]
          exact hc1 a ha
        · intro a ha h1
          rw [fetchCount_nil, Nat.add_zero] at h1
          exact hc2 a ha h1
        · intro a dep2 h
          rw [hwset] at h
          injection h with h1 h2
          injection h1 with ha hd2
          subst ha
          exact hv
    | fetching url dep =>
      have hurl : url ∉ sys.shared.visited := hheld url dep hw
      have hmir' := sysStep_mirror_inv pages sys 0 hmir
      rw [sysStep_fetching hg] at hmir' ⊢
      cases hp : pages url with
      | none =>
        rw [fetchStep_none hp] at hmir' ⊢
        refine ⟨⟨_, hwset _⟩, hmir', hkf, ?_, ?_, ?_⟩
        · intro a ha
          by_cases hua : url = a
          · exact absurd (hua ▸ hp) ha
          · rw [fetchCount_fetch_cons, if_neg hua, fetchCount_nil,
              Nat.zero_add, Nat.add_zero]
            exact hc1 a ha
        · intro a ha h1
          by_cases hua : url = a
          · exact absurd (hua ▸ hp) ha
          · rw [fetchCount_fetch_cons, if_neg hua, fetchCount_nil,
              Nat.zero_add, Nat.add_zero] at h1
            exact hc2 a ha h1
        · intro a dep2 h
          rw [hwset] at h
          injection h with h1 h2
          exact WorkerPC.noConfusion h1
      | some markup =>
        rw [fetchStep_some hp] at hmir' ⊢
        have hpu : pages url ≠ none := by
          rw [hp]
          exact fun hh => Option.noConfusion hh
        have hcnt0 : cnt url = 0 := by
          by_contra hne
          exact hurl (hc2 url hpu (Nat.one_le_iff_ne_zero.mpr hne))
        refine ⟨⟨_, hwset _⟩, hmir', ?_, ?_, ?_, ?_⟩
        · intro a ha
          have ha' : a ∈ visitedKeys (mark_visited
              (save_links sys.shared (parse_links markup url)) url dep) := ha
          rcases mem_visitedKeys_mark_iff.mp ha' with h2 | rfl
          · exact hkf a h2
          · exact hpu
        · intro a ha
          by_cases hua : url = a
          · subst hua
            rw [fetchCount_fetch_cons, if_pos rfl, fetchCount_insert_cons,
              fetchCount_nil, hcnt0]
          · rw [fetchCount_fetch_cons, if_neg hua, fetchCount_insert_cons,
              fetchCount_nil, Nat.zero_add, Nat.add_zero]
            exact hc1 a ha
        · intro a ha h1
          by_cases hua : url = a
          · subst hua
            show url ∈ setAdd sys.shared.visited url
            exact mem_setAdd.mpr (Or.inr rfl)
          · rw [fetchCount_fetch_cons, if_neg hua, fetchCount_insert_cons,
              fetchCount_nil, Nat.zero_add, Nat.add_zero] at h1
            show a ∈ setAdd sys.shared.visited url
            exact mem_setAdd.mpr (Or.inl (hc2 a ha h1))
        · intro a dep2 h
          rw [hwset] at h
          injection h with h1 h2
          exact WorkerPC.noConfusion h1

theorem sysRun_seq_inv (pages : String → Option (List StartTag))
    (sched : List Nat) : ∀ (sys : SysState) (cnt : String → Nat),
    (∃ pc, sys.workers = [pc]) →
    (∀ a, a ∈ sys.shared.visited ↔ a ∈ visitedKeys sys.shared) →
    (∀ a, a ∈ visitedKeys sys.shared → pages a ≠ none) →
    (∀ a, pages a ≠ none → cnt a ≤ 1) →
    (∀ a, pages a ≠ none → 1 ≤ cnt a → a ∈ sys.shared.visited) →
    (∀ a dep, sys.workers = [WorkerPC.fetching a dep] →
      a ∉ sys.shared.visited) →
    (∀ a, a ∈ visitedKeys (sysRun pages sys sched).1.shared →
      pages a ≠ none) ∧
    (∀ a, pages a ≠ none →
      cnt a + fetchCount (sysRun pages sys sched).2 a ≤ 1) := by
  induction sched with
  | nil =>
    intro sys cnt h1 h2 h3 h4 h5 h6
    rw [sysRun_nil]
    refine ⟨h3, ?_⟩
    intro a ha
    rw [fetchCount_nil, Nat.add_zero]
    exact h4 a ha
  | cons i sched ih =>
    intro sys cnt h1 h2 h3 h4 h5 h6
    rw [sysRun_cons]
    obtain ⟨g1, g2, g3, g4, g5, g6⟩ :=
      sysStep_seq_inv pages sys i cnt h1 h2 h3 h4 h5 h6
    obtain ⟨r1, r2⟩ := ih (sysStep pages sys i).1
      (fun a => cnt a + fetchCount (sysStep pages sys i).2 a) g1 g2 g3 g4 g5 g6
    refine ⟨r1, ?_⟩
    intro a ha
    rw [fetchCount_append, ← Nat.add_assoc]
    exact r2 a ha

/-- C9 amended: the claimed per-run dedup only holds sequentially — in
any run of a ONE-worker pool no URL that ends up in the visited store is
fetched more than once.  With two or more workers it fails: the mirror
check and `mark_visited` do not span the fetch atomically, so two
workers that raced on the same URL can both fetch it (see the
counterexample trace). -/
theorem single_worker_no_duplicate_fetch
    (pages : String → Option (List StartTag)) (u : String) (d : Nat)
    (sched : List Nat) (url : String)
    (h : url ∈ visitedKeys (sysRun pages (sysInit u d 1) sched).1.shared) :
    fetchCount (sysRun pages (sysInit u d 1) sched).2 url ≤ 1 := by
  obtain ⟨r1, r2⟩ := sysRun_seq_inv pages sched (sysInit u d 1) (fun _ => 0)
    ⟨.idle, rfl⟩
    (fun a => ⟨fun hh => absurd hh (List.not_mem_nil a),
      fun hh => absurd hh (List.not_mem_nil a)⟩)
    (fun a ha => absurd ha (List.not_mem_nil a))
    (fun a _ => Nat.zero_le 1)
    (fun a _ h1 => absurd h1 (by simp))
    (fun a dep hh => by
      have hh' : [WorkerPC.idle] = [WorkerPC.fetching a dep] := hh
      injection hh' with h1 h2
      exact WorkerPC.noConfusion h1)
  have hle := r2 url (r1 url h)
  rw [Nat.zero_add] at hle
  exact hle

/-- Witness for C9 amended: a one-worker run whose seed lands in the
visited store and is fetched exactly once. -/
theorem single_worker_no_duplicate_fetch_witness :
    "a" ∈ visitedKeys (sysRun emptyPages (sysInit "a" 6 1) [0, 0]).1.shared ∧
    fetchCount (sysRun emptyPages (sysInit "a" 6 1) [0, 0]).2 "a" ≤ 1 :=
  ⟨by decide,
   single_worker_no_duplicate_fetch emptyPages "a" 6 [0, 0] "a" (by decide)⟩

end WikiCrawler
